import Mathlib

/-!
Shallow embedding of the advent-of-code-2023 repository (Rust sources under
src/) together with theorems checking the natural-language specification
against it.  Rust machine integers are modelled as Int/Nat; fallible code
(values returned through Result, or aborts through assert!/unwrap) is
modelled with Option, where none stands for the abort/error outcome.
-/

set_option maxRecDepth 10000

namespace AoC

/-- The Answer struct of src/solver.rs. -/
structure Answer where
  part1 : Option String
  part2 : Option String
deriving DecidableEq, Repr

/-- Default for Answer (src/solver.rs impl Default): both parts "0". -/
def Answer.default : Answer := ⟨some "0", some "0"⟩

/-- Digits of a decimal token folded into a number (value of a run of
ASCII digit characters). -/
def parseDigitsAux (l : List Char) : Nat :=
  l.foldl (fun a c => a * 10 + (c.toNat - 48)) 0

/-- Parse a nonempty all-digit character run; none otherwise.  Models the
digit-run core of Rust's integer FromStr. -/
def parseDigits (l : List Char) : Option Nat :=
  if l ≠ [] ∧ l.all Char.isDigit then some (parseDigitsAux l) else none

/-- Rust integer parsing with an optional sign and a range check (models
str::parse for a bounded signed integer type). -/
def parseIntIn (lo hi : Int) (l : List Char) : Option Int :=
  match l with
  | '-' :: rest =>
      match parseDigits rest with
      | none => none
      | some n => if lo ≤ -(n : Int) ∧ -(n : Int) ≤ hi then some (-(n : Int)) else none
  | '+' :: rest =>
      match parseDigits rest with
      | none => none
      | some n => if lo ≤ (n : Int) ∧ (n : Int) ≤ hi then some (n : Int) else none
  | _ =>
      match parseDigits l with
      | none => none
      | some n => if lo ≤ (n : Int) ∧ (n : Int) ≤ hi then some (n : Int) else none

/-- Models str::parse::<i32>(). -/
def parseI32 (s : String) : Option Int :=
  parseIntIn (-2147483648) 2147483647 s.toList

/-- Models str::parse::<i64>(). -/
def parseI64 (s : String) : Option Int :=
  parseIntIn (-9223372036854775808) 9223372036854775807 s.toList

/-- Models str::parse::<u32>() (optional leading plus sign, digits, range). -/
def parseU32 (s : String) : Option Nat :=
  let l := match s.toList with
    | '+' :: rest => rest
    | l => l
  match parseDigits l with
  | none => none
  | some n => if n ≤ 4294967295 then some n else none

/-- str::parse::<u32>() on a character list. -/
def parseU32L (l : List Char) : Option Nat :=
  let l := match l with
    | '+' :: rest => rest
    | l => l
  match parseDigits l with
  | none => none
  | some n => if n ≤ 4294967295 then some n else none

/-- Fuelled splitter on a separator string: models Rust str::split for a
nonempty separator (pieces between non-overlapping left-to-right matches,
empty pieces included). -/
def splitSepFuel (sep : List Char) : Nat → List Char → List Char → List (List Char)
  | 0, l, acc => [acc ++ l]
  | fuel + 1, l, acc =>
    if sep.isPrefixOf l ∧ sep ≠ [] then
      acc :: splitSepFuel sep fuel (l.drop sep.length) []
    else
      match l with
      | [] => [acc]
      | c :: cs => splitSepFuel sep fuel cs (acc ++ [c])

/-- Rust str::split on a separator string. -/
def splitSep (sep : List Char) (l : List Char) : List (List Char) :=
  splitSepFuel sep (l.length + 1) l []

/-- Rust str::trim (whitespace stripped from both ends; ASCII whitespace
suffices for these puzzle inputs). -/
def trimChars (l : List Char) : List Char :=
  ((l.dropWhile Char.isWhitespace).reverse.dropWhile Char.isWhitespace).reverse

/-- Helper for str::split_whitespace: walk the characters collecting the
current token. -/
def wsTokensAux : List Char → List Char → List (List Char)
  | [], cur => if cur = [] then [] else [cur]
  | c :: cs, cur =>
    if c.isWhitespace then
      if cur = [] then wsTokensAux cs [] else cur :: wsTokensAux cs []
    else wsTokensAux cs (cur ++ [c])

/-- Rust str::split_whitespace: maximal nonempty runs between whitespace. -/
def wsTokens (l : List Char) : List (List Char) := wsTokensAux l []

/-- Strip one trailing carriage return (part of Rust str::lines). -/
def stripCR (ln : List Char) : List Char :=
  if ln.getLast? = some '\r' then ln.dropLast else ln

/-- Rust str::lines: split on newline, drop the final empty piece produced
by a trailing newline, strip a trailing carriage return per line. -/
def rustLines (l : List Char) : List (List Char) :=
  let parts := splitSep ['\n'] l
  let parts := if parts.getLast? = some [] then parts.dropLast else parts
  parts.map stripCR

/-- HashSet::insert on the insertion-ordered list model of HashSet<u32>. -/
def hsInsert (l : List Nat) (n : Nat) : List Nat :=
  if n ∈ l then l else l ++ [n]

namespace Day01

/-- char::is_numeric restricted to the ASCII inputs this puzzle uses. -/
def isNumericChar (c : Char) : Bool := c.isDigit

/-- char::is_alphabetic restricted to the ASCII inputs this puzzle uses. -/
def isAlphaChar (c : Char) : Bool := c.isAlpha

/-- add_answer of src/day01.rs: first and last stacked char (defaulting to
the char zero), glued into a two-char string, parsed as i32 and added. -/
def add_answer (stks : List Char) (current : Int) : Option Int :=
  let first := stks.head?.getD '0'
  let last := stks.getLast?.getD '0'
  match parseI32 (String.mk [first, last]) with
  | some v => some (current + v)
  | none => none

/-- One character of the part-1 loop of day01::solve: state is
(number_stacks, part_01). -/
def part1Step : (List Char × Int) → Char → Option (List Char × Int)
  | (stks, acc), c =>
    if isNumericChar c then some (stks ++ [c], acc)
    else if c = '\n' then (add_answer stks acc).map (fun a => ([], a))
    else some (stks, acc)

/-- The part-1 loop of day01::solve over a character list. -/
def part1Run (cs : List Char) (st : List Char × Int) : Option (List Char × Int) :=
  cs.foldlM part1Step st

/-- The ends_with chain of day01::solve part 2: the digit char produced by
the spelled-out digit word the collected letters currently end with. -/
def wordDigit (ls : List Char) : Option Char :=
  if List.isSuffixOf "one".toList ls then some '1'
  else if List.isSuffixOf "two".toList ls then some '2'
  else if List.isSuffixOf "three".toList ls then some '3'
  else if List.isSuffixOf "four".toList ls then some '4'
  else if List.isSuffixOf "five".toList ls then some '5'
  else if List.isSuffixOf "six".toList ls then some '6'
  else if List.isSuffixOf "seven".toList ls then some '7'
  else if List.isSuffixOf "eight".toList ls then some '8'
  else if List.isSuffixOf "nine".toList ls then some '9'
  else none

/-- One character of the part-2 loop of day01::solve: state is
(number_stacks, letter_stacks, part_02). -/
def part2Step : (List Char × List Char × Int) → Char → Option (List Char × List Char × Int)
  | (nums, lets, acc), c =>
    if isNumericChar c then some (nums ++ [c], lets, acc)
    else if c = '\n' then (add_answer nums acc).map (fun a => ([], [], a))
    else if isAlphaChar c then
      let lets' := lets ++ [c]
      match wordDigit lets' with
      | some d => some (nums ++ [d], lets', acc)
      | none => some (nums, lets', acc)
    else some (nums, lets, acc)

/-- The part-2 loop of day01::solve over a character list. -/
def part2Run (cs : List Char) (st : List Char × List Char × Int) :
    Option (List Char × List Char × Int) :=
  cs.foldlM part2Step st

/-- day01::solve on the character list of the input: run the part-1 loop,
then the part-2 loop, and render both accumulators; none models the Err
return of add_answer. -/
def solveL (l : List Char) : Option Answer := do
  let (_, p1) ← part1Run l ([], 0)
  let (_, _, p2) ← part2Run l ([], [], 0)
  pure ⟨some (toString p1), some (toString p2)⟩

/-- day01::solve. -/
def solve (input : String) : Option Answer := solveL input.toList

/-- The prefix of a character list up to and including its last newline
(empty when there is no newline). -/
def upToLastNL (l : List Char) : List Char :=
  (l.reverse.dropWhile (fun c => c ≠ '\n')).reverse

/-- The characters after the last newline (the whole list when there is no
newline). -/
def afterLastNL (l : List Char) : List Char :=
  (l.reverse.takeWhile (fun c => c ≠ '\n')).reverse

theorem upToLastNL_append (l : List Char) : l = upToLastNL l ++ afterLastNL l := by
  have h := List.takeWhile_append_dropWhile (p := fun c => decide (c ≠ '\n')) (l := l.reverse)
  unfold upToLastNL afterLastNL
  calc l = l.reverse.reverse := (List.reverse_reverse l).symm
    _ = (l.reverse.takeWhile (fun c => decide (c ≠ '\n')) ++
          l.reverse.dropWhile (fun c => decide (c ≠ '\n'))).reverse := by rw [h]
    _ = _ := by rw [List.reverse_append]

theorem afterLastNL_no_nl (l : List Char) : ∀ c ∈ afterLastNL l, c ≠ '\n' := by
  intro c hc
  unfold afterLastNL at hc
  rw [List.mem_reverse] at hc
  have := List.mem_takeWhile_imp hc
  simpa using this

theorem foldlM_opt_append {α σ : Type} (f : σ → α → Option σ) (a b : List α) (st : σ) :
    List.foldlM f st (a ++ b) = (List.foldlM f st a).bind (fun st2 => List.foldlM f st2 b) := by
  induction a generalizing st with
  | nil => simp [List.foldlM]
  | cons c cs ih =>
    simp only [List.cons_append, List.foldlM]
    cases f st c with
    | none => simp
    | some st2 => simp [ih]

theorem part1Run_append (a b : List Char) (st : List Char × Int) :
    part1Run (a ++ b) st = (part1Run a st).bind (fun st2 => part1Run b st2) :=
  foldlM_opt_append part1Step a b st

theorem part2Run_append (a b : List Char) (st : List Char × List Char × Int) :
    part2Run (a ++ b) st = (part2Run a st).bind (fun st2 => part2Run b st2) :=
  foldlM_opt_append part2Step a b st

theorem part1Run_no_nl (cs : List Char) (st : List Char × Int)
    (h : ∀ c ∈ cs, c ≠ '\n') : ∃ ks, part1Run cs st = some (ks, st.2) := by
  induction cs generalizing st with
  | nil => exact ⟨st.1, by simp [part1Run, List.foldlM]⟩
  | cons c cs ih =>
    have hc : c ≠ '\n' := h c (List.mem_cons_self c cs)
    have hrest : ∀ x ∈ cs, x ≠ '\n' := fun x hx => h x (List.mem_cons_of_mem c hx)
    obtain ⟨s1, s2⟩ := st
    by_cases hd : isNumericChar c
    · obtain ⟨ks, hks⟩ := ih (s1 ++ [c], s2) hrest
      exact ⟨ks, by simpa [part1Run, List.foldlM, part1Step, hd] using hks⟩
    · obtain ⟨ks, hks⟩ := ih (s1, s2) hrest
      exact ⟨ks, by simpa [part1Run, List.foldlM, part1Step, hd, hc] using hks⟩

theorem part2Run_no_nl (cs : List Char) (st : List Char × List Char × Int)
    (h : ∀ c ∈ cs, c ≠ '\n') : ∃ ks ls, part2Run cs st = some (ks, ls, st.2.2) := by
  induction cs generalizing st with
  | nil => exact ⟨st.1, st.2.1, by simp [part2Run, List.foldlM]⟩
  | cons c cs ih =>
    have hc : c ≠ '\n' := h c (List.mem_cons_self c cs)
    have hrest : ∀ x ∈ cs, x ≠ '\n' := fun x hx => h x (List.mem_cons_of_mem c hx)
    obtain ⟨s1, s2, s3⟩ := st
    by_cases hd : isNumericChar c
    · obtain ⟨ks, ls, hks⟩ := ih (s1 ++ [c], s2, s3) hrest
      exact ⟨ks, ls, by simpa [part2Run, List.foldlM, part2Step, hd] using hks⟩
    · by_cases ha : isAlphaChar c
      · cases hw : wordDigit (s2 ++ [c]) with
        | none =>
          obtain ⟨ks, ls, hks⟩ := ih (s1, s2 ++ [c], s3) hrest
          exact ⟨ks, ls, by simpa [part2Run, List.foldlM, part2Step, hd, hc, ha, hw] using hks⟩
        | some d =>
          obtain ⟨ks, ls, hks⟩ := ih (s1 ++ [d], s2 ++ [c], s3) hrest
          exact ⟨ks, ls, by simpa [part2Run, List.foldlM, part2Step, hd, hc, ha, hw] using hks⟩
      · obtain ⟨ks, ls, hks⟩ := ih (s1, s2, s3) hrest
        exact ⟨ks, ls, by simpa [part2Run, List.foldlM, part2Step, hd, hc, ha] using hks⟩

theorem add_answer_nil (acc : Int) : add_answer [] acc = some acc := by
  have h : parseI32 (String.mk ['0', '0']) = some 0 := by decide
  simp [add_answer, h]

theorem solveL_append_no_nl (p r : List Char) (hr : ∀ c ∈ r, c ≠ '\n') :
    solveL (p ++ r) = solveL p := by
  simp only [solveL, part1Run_append, part2Run_append]
  cases h1 : part1Run p ([], 0) with
  | none => simp
  | some st =>
    obtain ⟨ks, hks⟩ := part1Run_no_nl r st hr
    cases h2 : part2Run p ([], [], 0) with
    | none => simp [hks]
    | some st2 =>
      obtain ⟨ks2, ls2, hks2⟩ := part2Run_no_nl r st2 hr
      simp [hks, hks2]

theorem part1Run_inert (cs : List Char) (acc : Int)
    (h : ∀ c ∈ cs, isNumericChar c = false ∧ c ≠ '\n') :
    part1Run cs ([], acc) = some ([], acc) := by
  induction cs with
  | nil => simp [part1Run, List.foldlM]
  | cons c cs ih =>
    have hc := h c (List.mem_cons_self c cs)
    have hrest : ∀ x ∈ cs, isNumericChar x = false ∧ x ≠ '\n' :=
      fun x hx => h x (List.mem_cons_of_mem c hx)
    simpa [part1Run, List.foldlM, part1Step, hc.1, hc.2] using ih hrest

end Day01

/-- C1: on the four-line calibration input (with trailing newline),
day01::solve returns Ok with part1 = Some "142", the sum over lines of the
two-digit number formed from each line's first and last numeric character. -/
theorem claim_C1 :
    (Day01.solve "1abc2\npqr3stu8vwx\na1b2c3d4e5f\ntreb7uchet\n").map Answer.part1 =
      some (some "142") := by decide

/-- C8: day01 part 2 counts overlapping spelled-out digit words (a letter
shared by two consecutive digit words ends both words), so
solve "eighthree\n" gives part2 = Some "83"; and a line with exactly one
digit uses it as both first and last, so solve "nine\n" gives
part2 = Some "99". -/
theorem claim_C8 :
    (Day01.solve "eighthree\n").map Answer.part2 = some (some "83") ∧
    (Day01.solve "nine\n").map Answer.part2 = some (some "99") := by decide

/-- C9: day01::solve only accumulates a line when a newline is consumed:
solve on any string equals solve on its prefix through the last newline;
a non-empty input with no newline at all yields part1 = part2 = Some "0";
and a line containing no digit contributes 0 to the part-1 accumulator
(first and last default to the char zero). -/
theorem claim_C9 (s : String) :
    (Day01.solve s = Day01.solve (String.mk (Day01.upToLastNL s.toList))) ∧
    (s.toList ≠ [] → (∀ c ∈ s.toList, c ≠ '\n') →
      Day01.solve s = some ⟨some "0", some "0"⟩) ∧
    (∀ (cs : List Char) (acc : Int),
      (∀ c ∈ cs, Day01.isNumericChar c = false ∧ c ≠ '\n') →
      Day01.part1Run (cs ++ ['\n']) ([], acc) = some ([], acc)) := by
  refine ⟨?_, ?_, ?_⟩
  · have hdec := Day01.upToLastNL_append s.toList
    have hnl := Day01.afterLastNL_no_nl s.toList
    show Day01.solveL s.toList = Day01.solveL (String.mk (Day01.upToLastNL s.toList)).toList
    have htl : (String.mk (Day01.upToLastNL s.toList)).toList = Day01.upToLastNL s.toList := rfl
    rw [htl]
    conv_lhs => rw [hdec]
    exact Day01.solveL_append_no_nl _ _ hnl
  · intro _ hnl
    obtain ⟨ks, hks⟩ := Day01.part1Run_no_nl s.toList ([], 0) hnl
    obtain ⟨ks2, ls2, hks2⟩ := Day01.part2Run_no_nl s.toList ([], [], 0) hnl
    simp only [Day01.solve, Day01.solveL, hks, hks2]
    rfl
  · intro cs acc h
    rw [Day01.part1Run_append, Day01.part1Run_inert cs acc h]
    simp [Day01.part1Run, List.foldlM, Day01.part1Step, Day01.add_answer_nil,
      show Day01.isNumericChar '\n' = false from by decide]

/-- Witness for C9 at concrete inputs. -/
theorem claim_C9_witness :
    (Day01.solve "ab1\ncd" = Day01.solve (String.mk (Day01.upToLastNL "ab1\ncd".toList))) ∧
    (Day01.solve "treb7uchet" = some ⟨some "0", some "0"⟩) ∧
    (Day01.part1Run ("xy".toList ++ ['\n']) ([], 5) = some ([], 5)) := by
  refine ⟨(claim_C9 "ab1\ncd").1, ?_, ?_⟩
  · exact (claim_C9 "treb7uchet").2.1 (by decide) (by decide)
  · exact (claim_C9 "x").2.2 "xy".toList 5 (by decide)

namespace Day04

/-- The Card struct of src/day04.rs; the two HashSet<u32> fields are
modelled as insertion-ordered duplicate-free lists. -/
structure Card where
  winning_numbers : List Nat
  our_numbers : List Nat
deriving DecidableEq, Repr

/-- Card::insert_numbers: parse each whitespace-separated token as u32
(abort on failure) and insert into the set. -/
def insert_numbers (text : List Char) (numbers : List Nat) : Option (List Nat) :=
  (wsTokens text).foldlM (fun acc tok => (parseU32L tok).map (hsInsert acc)) numbers

/-- Card::new of src/day04.rs: split on the colon (assert two parts), split
the second part on the bar (assert two parts), parse both number lists;
none models the assert!/unwrap panics. -/
def Card.new (input : List Char) : Option Card :=
  match (splitSep [':'] input).map trimChars with
  | [_, b] =>
    match (splitSep ['|'] b).map trimChars with
    | [w, o] => do
      let winning ← insert_numbers w []
      let ours ← insert_numbers o []
      pure (⟨winning, ours⟩ : Card)
    | _ => none
  | _ => none

/-- The copy-distribution loop of Card::get_score: for each of
remaining iterations starting at index i, either extend the queue with
processed + 1 or add processed to the existing entry. -/
def scoreLoop (processed : Nat) : Nat → Nat → List Nat → List Nat
  | 0, _, stks => stks
  | r + 1, i, stks =>
      scoreLoop processed r (i + 1)
        (if stks.length ≤ i then stks ++ [processed + 1]
         else stks.set i (stks.getD i 0 + processed))

/-- Card::get_score: the number of winning matches, the number of copies of
this card processed (front of the queue, default 1), the distributed
copies, and the part-1 score 2^(matches-1) (0 when no match). -/
def Card.get_score (c : Card) (card_stks : List Nat) : (Nat × Nat) × List Nat :=
  let win_counter := (c.our_numbers.filter (fun n => n ∈ c.winning_numbers)).length
  let cards_processed := card_stks.head?.getD 1
  let stks := scoreLoop cards_processed win_counter 0 card_stks.tail
  let score := if win_counter > 0 then 2 ^ (win_counter - 1) else 0
  ((score, cards_processed), stks)

/-- One line of the solve_day04 loop: build the card, score it against the
copy queue, add score and processed count. -/
def day04Step (st : Nat × Nat × List Nat) (line : List Char) :
    Option (Nat × Nat × List Nat) := do
  let card ← Card.new line
  let ((score, processed), stks) := card.get_score st.2.2
  pure (st.1 + score, st.2.1 + processed, stks)

/-- solve_day04 of src/day04.rs: fold every line into (part1, part2, copy
queue); none models a parse panic. -/
def solve_day04 (input : String) : Option Answer :=
  match (rustLines input.toList).foldlM day04Step
      ((0, 0, []) : Nat × Nat × List Nat) with
  | some (p1, p2, _) => some ⟨some (toString p1), some (toString p2)⟩
  | none => none

/-- The malformedness predicate of spec claim C5 for one cards line, read
at the positions where day04's parser applies each split: the line does
not split into exactly two parts on the colon, its number section does not
split into exactly two parts on the bar, or a number token fails to parse
as u32. -/
def cardLineMalformed (line : List Char) : Bool :=
  match (splitSep [':'] line).map trimChars with
  | [_, b] =>
    match (splitSep ['|'] b).map trimChars with
    | [w, o] => (wsTokens w ++ wsTokens o).any (fun tok => parseU32L tok = none)
    | _ => true
  | _ => true

theorem foldlM_none_of_mem {α σ : Type} (f : σ → α → Option σ) (l : List α) (x : α)
    (hx : x ∈ l) (hf : ∀ st, f st x = none) : ∀ st, l.foldlM f st = none := by
  induction l with
  | nil => cases hx
  | cons a as ih =>
    intro st
    rcases List.mem_cons.mp hx with h | h
    · subst h
      simp [List.foldlM, hf st]
    · cases hfa : f st a with
      | none => simp [List.foldlM, hfa]
      | some st2 => simp [List.foldlM, hfa, ih h]

theorem insert_numbers_none_of_bad (text : List Char)
    (h : ∃ tok ∈ wsTokens text, parseU32L tok = none) :
    ∀ init, insert_numbers text init = none := by
  obtain ⟨tok, htok, hbad⟩ := h
  intro init
  exact foldlM_none_of_mem _ _ tok htok (fun st => by simp [hbad]) init

theorem cardNew_none_of_malformed (line : List Char)
    (h : cardLineMalformed line = true) : Card.new line = none := by
  unfold Card.new
  unfold cardLineMalformed at h
  cases h1 : (splitSep [':'] line).map trimChars with
  | nil => rfl
  | cons a rest =>
    cases rest with
    | nil => rfl
    | cons b rest2 =>
      cases rest2 with
      | cons _ _ => rfl
      | nil =>
        rw [h1] at h
        simp only [] at h
        cases h2 : (splitSep ['|'] b).map trimChars with
        | nil => simp only [h2]
        | cons w rest3 =>
          cases rest3 with
          | nil => simp only [h2]
          | cons o rest4 =>
            cases rest4 with
            | cons _ _ => simp only [h2]
            | nil =>
              rw [h2] at h
              simp only [List.any_eq_true, List.mem_append, decide_eq_true_eq] at h
              obtain ⟨tok, htok, hbad⟩ := h
              simp only [h2]
              rcases htok with hw | ho
              · rw [insert_numbers_none_of_bad w ⟨tok, hw, hbad⟩ []]
                rfl
              · cases hww : insert_numbers w [] with
                | none => rfl
                | some wn =>
                  rw [insert_numbers_none_of_bad o ⟨tok, ho, hbad⟩ []]
                  rfl

end Day04

namespace Day05

/-- The Category enum of src/day05.rs. -/
inductive Category
  | Seed
  | Soil
  | Fertilizer
  | Water
  | Light
  | Temperature
  | Humidity
  | Location
deriving DecidableEq, Repr

/-- strum's case-insensitive FromStr for Category. -/
def Category.from_str (l : List Char) : Option Category :=
  let t := String.mk (l.map Char.toLower)
  if t = "seed" then some .Seed
  else if t = "soil" then some .Soil
  else if t = "fertilizer" then some .Fertilizer
  else if t = "water" then some .Water
  else if t = "light" then some .Light
  else if t = "temperature" then some .Temperature
  else if t = "humidity" then some .Humidity
  else if t = "location" then some .Location
  else none

/-- The Range struct of src/day05.rs over i64 (Int model); the Rust field
named end is called stop here. -/
structure RangeI where
  start : Int
  stop : Int
  diff : Int
deriving DecidableEq, Repr

/-- The derived lexicographic Ord of Range<i64> (start, then end, then
diff). -/
def RangeI.le (a b : RangeI) : Prop :=
  a.start < b.start ∨
    (a.start = b.start ∧ (a.stop < b.stop ∨ (a.stop = b.stop ∧ a.diff ≤ b.diff)))

instance : DecidableRel RangeI.le := fun a b => by
  unfold RangeI.le
  infer_instance

instance : IsTotal RangeI RangeI.le :=
  ⟨by intro a b; unfold RangeI.le; omega⟩

instance : IsTrans RangeI RangeI.le :=
  ⟨by intro a b c; unfold RangeI.le; omega⟩

/-- Vec::sort by the derived Ord: since compare-equal ranges are equal, any
sorted permutation is the Rust result. -/
def sortRanges (l : List RangeI) : List RangeI := List.insertionSort RangeI.le l

/-- i64::MAX. -/
def i64Max : Int := 9223372036854775807

/-- The loop body of FillGaps::fill_gaps of src/day05.rs, carrying
min_value. -/
def fillGapsGo : List RangeI → Int → List RangeI
  | [], minV => [⟨minV, i64Max, 0⟩]
  | c :: cs, minV =>
      (if minV < c.start then [(⟨minV, c.start, 0⟩ : RangeI)] else []) ++
        c :: fillGapsGo cs c.stop

/-- FillGaps::fill_gaps: pad the sorted range list with zero-diff gap
ranges from 0 and up to i64::MAX. -/
def fill_gaps (l : List RangeI) : List RangeI := fillGapsGo l 0

/-- The Map struct of src/day05.rs. -/
structure Map where
  source_category : Category
  destination_category : Category
  formulas : List RangeI
deriving DecidableEq, Repr

/-- Parse every token of a data line as i64 in order, aborting at the
first failure (the collect of unwrapping parses in Map::new). -/
def parseTokensI64 : List (List Char) → Option (List Int)
  | [] => some []
  | t :: ts =>
    match parseIntIn (-9223372036854775808) 9223372036854775807 t with
    | none => none
    | some v =>
      match parseTokensI64 ts with
      | none => none
      | some vs => some (v :: vs)

/-- One data line of a map block: parse every whitespace token as i64
(abort on failure), require exactly three, build
Range(src, src+interval, dst-src). -/
def lineToFormula (line : List Char) : Option RangeI :=
  match parseTokensI64 (wsTokens line) with
  | none => none
  | some [dst, src, interval] => some (⟨src, src + interval, dst - src⟩ : RangeI)
  | some _ => none

/-- Build the formula of every data line in order, aborting at the first
panicking line. -/
def collectFormulas : List (List Char) → Option (List RangeI)
  | [] => some []
  | l :: ls =>
    match lineToFormula l with
    | none => none
    | some r =>
      match collectFormulas ls with
      | none => none
      | some rs => some (r :: rs)

/-- Map::new of src/day05.rs: assert more than one line, split the header
on the category separator into exactly two categories, parse each data
line, sort and gap-fill; none models the assert!/unwrap panics. -/
def Map.new (input : List (List Char)) : Option Map :=
  if input.length > 1 then
    match input with
    | [] => none
    | first_line :: rest =>
      match splitSep "-to-".toList first_line with
      | [first, last] => do
        let source_category ← Category.from_str first
        let destination_category ← Category.from_str last
        let formulas ← collectFormulas rest
        pure (⟨source_category, destination_category,
                fill_gaps (sortRanges formulas)⟩ : Map)
      | _ => none
  else none

/-- The Almanac struct of src/day05.rs. -/
structure Almanac where
  seeds_one : List RangeI
  seeds_range : List RangeI
  maps : List Map
deriving Repr

/-- Remove every occurrence of a substring (Rust str::replace with the
empty replacement). -/
def removeAll (sep l : List Char) : List Char := (splitSep sep l).flatten

/-- Rust str::contains for a substring. -/
def containsSub (l sub : List Char) : Bool :=
  (List.range (l.length + 1)).any (fun i => sub.isPrefixOf (l.drop i))

/-- The enumerate loop of the seeds line of Almanac::new: every number is a
one-element seed range; consecutive pairs form a seed range. -/
def seedsLoop : List (List Char) → Nat → Int → List RangeI → List RangeI →
    Option (List RangeI × List RangeI)
  | [], _, _, s1, sr => some (s1, sr)
  | tok :: toks, index, start, s1, sr =>
    match parseIntIn (-9223372036854775808) 9223372036854775807 tok with
    | none => none
    | some x =>
        let s1' := s1 ++ [(⟨x, x + 1, 0⟩ : RangeI)]
        if index % 2 = 0 then seedsLoop toks (index + 1) x s1' sr
        else seedsLoop toks (index + 1) start s1' (sr ++ [(⟨start, start + x, 0⟩ : RangeI)])

/-- The seeds-line handling of Almanac::new. -/
def parseSeeds (line : List Char) : Option (List RangeI × List RangeI) :=
  let v := trimChars (removeAll "seeds:".toList line)
  seedsLoop (wsTokens v) 0 0 [] []

/-- The line loop of Almanac::new, fuelled by the number of remaining
lines (each step consumes at least one line, so the initial fuel of
Almanac.new can never run out). -/
def almanacGo : Nat → List (List Char) → List RangeI → List RangeI → List Map →
    Option (List RangeI × List RangeI × List Map)
  | 0, _, _, _, _ => none
  | _ + 1, [], s1, sr, maps => some (s1, sr, maps)
  | fuel + 1, line :: rest, s1, sr, maps =>
    if line = [] then almanacGo fuel rest s1 sr maps
    else
      match (if s1 = [] then parseSeeds line else some (s1, sr)) with
      | none => none
      | some (s1', sr') =>
        if s1' = [] then none
        else if containsSub line "map:".toList then
          let header := trimChars (removeAll "map:".toList line)
          let block := rest.takeWhile (fun l => l ≠ [])
          let rest' := (rest.drop block.length).drop 1
          match Map.new (header :: block) with
          | none => none
          | some m => almanacGo fuel rest' s1' sr' (maps ++ [m])
        else almanacGo fuel rest s1' sr' maps

/-- Almanac::new of src/day05.rs. -/
def Almanac.new (input : String) : Option Almanac := do
  let lines := rustLines input.toList
  let (s1, sr, maps) ← almanacGo (lines.length + 1) lines [] [] []
  pure (⟨sortRanges s1, sortRanges sr, maps⟩ : Almanac)

/-- The inner remapping of Almanac::get_next_range: one source range
against every formula range, with the four overlap cases. -/
def remapOne (formulas : List RangeI) (src : RangeI) : List RangeI :=
  formulas.filterMap (fun dst =>
    let d := dst.diff
    if src.start ≥ dst.start ∧ src.stop ≤ dst.stop then
      some (⟨src.start + d, src.stop + d, 0⟩ : RangeI)
    else if src.start < dst.start ∧ src.stop > dst.stop then
      some (⟨dst.start + d, dst.stop + d, 0⟩ : RangeI)
    else if src.start < dst.start ∧ src.stop ≤ dst.stop ∧ src.stop ≥ dst.start then
      some (⟨dst.start + d, src.stop + d, 0⟩ : RangeI)
    else if src.start ≥ dst.start ∧ src.stop > dst.stop ∧ src.start ≤ dst.stop then
      some (⟨src.start + d, dst.stop + d, 0⟩ : RangeI)
    else none)

/-- Almanac::get_next_range: find the map for the source category (unwrap
models the panic when absent), remap every source range, sort. -/
def Almanac.get_next_range (a : Almanac) (source_range : List RangeI)
    (source_category : Category) : Option (List RangeI × Category) :=
  match a.maps.find? (fun f => f.source_category == source_category) with
  | none => none
  | some m =>
      some (sortRanges ((source_range.map (remapOne m.formulas)).flatten),
            m.destination_category)

/-- The category-chase loop of Almanac::solve.  Eight categories exist, so
a run that has not reached Location after eight get_next_range steps has
repeated a category and loops forever in Rust; fuel 8 therefore models the
while loop exactly (none = divergence or a missing-map panic). -/
def Almanac.solveLoop (a : Almanac) : Nat → List RangeI → Category → Option (List RangeI)
  | 0, _, _ => none
  | fuel + 1, current, cat =>
    if cat = Category.Location then some current
    else
      match a.get_next_range current cat with
      | none => none
      | some (nxt, cat') => a.solveLoop fuel nxt cat'

/-- Almanac::solve: chase categories from Seed to Location, then take the
minimum range start (starting from i64::MAX). -/
def Almanac.solve (a : Almanac) (seeds : List RangeI) : Option Int :=
  match a.solveLoop 8 seeds Category.Seed with
  | none => none
  | some current => some (current.foldl (fun m r => min m r.start) i64Max)

/-- day05::solve of src/day05.rs. -/
def solve (input : String) : Option Answer := do
  let almanac ← Almanac.new input
  let part1 ← almanac.solve almanac.seeds_one
  let part2 ← almanac.solve almanac.seeds_range
  pure (⟨some (toString part1), some (toString part2)⟩ : Answer)

/-- The malformedness predicate of spec claim C5 for one map data line:
its whitespace tokens do not all parse as i64, or there are not exactly
three of them. -/
def mapLineMalformed (l : List Char) : Bool :=
  match parseTokensI64 (wsTokens l) with
  | none => true
  | some nums => nums.length ≠ 3

theorem collectFormulas_none_of_mem (ls : List (List Char)) (l : List Char)
    (hl : l ∈ ls) (hf : lineToFormula l = none) : collectFormulas ls = none := by
  induction ls with
  | nil => cases hl
  | cons a as ih =>
    rcases List.mem_cons.mp hl with h | h
    · subst h
      simp [collectFormulas, hf]
    · cases hfa : lineToFormula a with
      | none => simp [collectFormulas, hfa]
      | some r => simp [collectFormulas, hfa, ih h]

theorem lineToFormula_none_of_malformed (l : List Char)
    (h : mapLineMalformed l = true) : lineToFormula l = none := by
  unfold mapLineMalformed at h
  unfold lineToFormula
  cases hm : parseTokensI64 (wsTokens l) with
  | none => rfl
  | some nums =>
    rw [hm] at h
    simp only [ne_eq, decide_eq_true_eq] at h
    match nums, h with
    | [], _ => rfl
    | [_], _ => rfl
    | [_, _], _ => rfl
    | _ :: _ :: _ :: _ :: _, _ => rfl
    | [a, b, c], h => exact (h rfl).elim

theorem mapNew_none_of_malformed (input : List (List Char))
    (h : (∃ hd rest, input = hd :: rest ∧ (splitSep "-to-".toList hd).length ≠ 2) ∨
         (∃ l ∈ input.tail, mapLineMalformed l = true)) :
    Map.new input = none := by
  unfold Map.new
  by_cases hlen : input.length > 1
  · simp only [hlen, if_true]
    rcases input with _ | ⟨hd, rest⟩
    · rfl
    · simp only []
      cases hsplit : splitSep "-to-".toList hd with
      | nil => rfl
      | cons f rest2 =>
        cases rest2 with
        | nil => rfl
        | cons snd rest3 =>
          cases rest3 with
          | cons _ _ => rfl
          | nil =>
            rcases h with ⟨hd2, rest4, heq, hne⟩ | ⟨l, hl, hbad⟩
            · obtain ⟨rfl, rfl⟩ : hd2 = hd ∧ rest4 = rest := by
                constructor <;> [exact (List.cons.injEq .. ▸ heq).1.symm;
                  exact (List.cons.injEq .. ▸ heq).2.symm]
              rw [hsplit] at hne
              simp at hne
            · simp only []
              cases hf : Category.from_str f with
              | none => rfl
              | some sc =>
                cases hs : Category.from_str snd with
                | none => simp
                | some dc =>
                  have hcf : collectFormulas rest = none :=
                    collectFormulas_none_of_mem rest l hl
                      (lineToFormula_none_of_malformed l hbad)
                  simp [hcf]
  · simp [hlen]

end Day05

namespace Day04

/-- Hash-iteration-order independence of day04's match counting: scoring a
card whose two sets are stored in any other order (any permutation, as a
HashSet with a different seed would produce) yields the same score, the
same processed count and the same copy queue.  The win counter is the
length of a filtered list, and both the filter predicate (membership) and
the length are invariant under permuting either set. -/
theorem get_score_perm_invariant (w o w2 o2 : List Nat) (stks : List Nat)
    (hw : w.Perm w2) (ho : o.Perm o2) :
    Card.get_score ⟨w, o⟩ stks = Card.get_score ⟨w2, o2⟩ stks := by
  unfold Card.get_score
  have hcount : ((⟨w, o⟩ : Card).our_numbers.filter
      (fun n => n ∈ (⟨w, o⟩ : Card).winning_numbers)).length =
      ((⟨w2, o2⟩ : Card).our_numbers.filter
        (fun n => n ∈ (⟨w2, o2⟩ : Card).winning_numbers)).length := by
    show (o.filter (fun n => n ∈ w)).length = (o2.filter (fun n => n ∈ w2)).length
    have hf : o.filter (fun n => decide (n ∈ w)) =
        o.filter (fun n => decide (n ∈ w2)) := by
      apply List.filter_congr
      intro x _
      simp [hw.mem_iff]
    rw [hf]
    exact (ho.filter (fun n => decide (n ∈ w2))).length_eq
  rw [hcount]

theorem solve_day04_abort (input : String)
    (h : ∃ line ∈ rustLines input.toList, cardLineMalformed line = true) :
    solve_day04 input = none := by
  obtain ⟨line, hline, hbad⟩ := h
  have hnone := foldlM_none_of_mem day04Step (rustLines input.toList) line hline
    (fun st => by simp [day04Step, cardNew_none_of_malformed line hbad])
    ((0, 0, []) : Nat × Nat × List Nat)
  unfold solve_day04
  rw [hnone]

end Day04

/-- C3: on the worked almanac example (seeds 79 14 55 13 and the seven
category maps), day05::solve returns part1 = Some "35" and
part2 = Some "46": the minimum Location over the four single seeds and
over the two seed ranges after applying every map in category order. -/
theorem claim_C3 :
    Day05.solve
      ("seeds: 79 14 55 13\n\n" ++
       "seed-to-soil map:\n50 98 2\n52 50 48\n\n" ++
       "soil-to-fertilizer map:\n0 15 37\n37 52 2\n39 0 15\n\n" ++
       "fertilizer-to-water map:\n49 53 8\n0 11 42\n42 0 7\n57 7 4\n\n" ++
       "water-to-light map:\n88 18 7\n18 25 70\n\n" ++
       "light-to-temperature map:\n45 77 23\n81 45 19\n68 64 13\n\n" ++
       "temperature-to-humidity map:\n0 69 1\n1 0 69\n\n" ++
       "humidity-to-location map:\n60 56 37\n56 93 4\n") =
      some ⟨some "35", some "46"⟩ := by decide

/-- C5: malformed input is fatal: any cards input containing a line that
does not split in two at the colon or at the bar, or with a number token
that does not parse as u32, makes solve_day04 abort (none, modelling the
panic, so neither Ok nor Err); and day05's Map::new aborts on a header
that does not split into exactly two categories or on a data line that
does not hold exactly three integers. -/
theorem claim_C5 :
    (∀ input : String,
      (∃ line ∈ rustLines input.toList, Day04.cardLineMalformed line = true) →
      Day04.solve_day04 input = none) ∧
    (∀ input : List (List Char),
      ((∃ hd rest, input = hd :: rest ∧ (splitSep "-to-".toList hd).length ≠ 2) ∨
       (∃ l ∈ input.tail, Day05.mapLineMalformed l = true)) →
      Day05.Map.new input = none) :=
  ⟨Day04.solve_day04_abort, Day05.mapNew_none_of_malformed⟩

/-- Witness for C5 at concrete malformed inputs: a cards line without a
colon, and a map block whose header splits in three and whose data line
has four integers. -/
theorem claim_C5_witness :
    Day04.solve_day04 "Card 1 41 48 | 83 86" = none ∧
    Day05.Map.new ["seed-to-soil-to-x".toList, "1 2 3".toList] = none ∧
    Day05.Map.new ["seed-to-soil".toList, "1 2 3 4".toList] = none := by
  refine ⟨claim_C5.1 "Card 1 41 48 | 83 86" ?_, claim_C5.2 _ ?_, claim_C5.2 _ ?_⟩
  · exact ⟨"Card 1 41 48 | 83 86".toList, by decide, by decide⟩
  · exact Or.inl ⟨"seed-to-soil-to-x".toList, ["1 2 3".toList], rfl, by decide⟩
  · exact Or.inr ⟨"1 2 3 4".toList, by decide, by decide⟩

namespace SolverMeta

/-- The input-file path Solver::new builds for a day: "input/" followed by
the day number zero-padded on the left to width two. -/
def inputPath (day : Int) : String :=
  let s := toString day
  if s.length < 2 then "input/" ++ String.mk (List.replicate (2 - s.length) '0') ++ s
  else "input/" ++ s

/-- The module and function name a dispatch arm of Solver::solve calls. -/
structure DispatchTarget where
  module : String
  function : String
deriving DecidableEq, Repr

/-- The match arms of Solver::solve in src/solver.rs: day d is dispatched
to crate::day0d::solve for d = 1..16; every other day hits todo!()
(none). -/
def dispatchTarget (day : Int) : Option DispatchTarget :=
  if day = 1 then some ⟨"day01", "solve"⟩
  else if day = 2 then some ⟨"day02", "solve"⟩
  else if day = 3 then some ⟨"day03", "solve"⟩
  else if day = 4 then some ⟨"day04", "solve"⟩
  else if day = 5 then some ⟨"day05", "solve"⟩
  else if day = 6 then some ⟨"day06", "solve"⟩
  else if day = 7 then some ⟨"day07", "solve"⟩
  else if day = 8 then some ⟨"day08", "solve"⟩
  else if day = 9 then some ⟨"day09", "solve"⟩
  else if day = 10 then some ⟨"day10", "solve"⟩
  else if day = 11 then some ⟨"day11", "solve"⟩
  else if day = 12 then some ⟨"day12", "solve"⟩
  else if day = 13 then some ⟨"day13", "solve"⟩
  else if day = 14 then some ⟨"day14", "solve"⟩
  else if day = 15 then some ⟨"day15", "solve"⟩
  else if day = 16 then some ⟨"day16", "solve"⟩
  else none

/-- The public solver functions each day module actually declares (the
pub fn items of src/day01.rs .. src/day19.rs). -/
def moduleSolverFns (m : String) : List String :=
  if m = "day03" then ["solve_day03"]
  else if m = "day04" then ["solve_day04"]
  else if m = "day06" then ["solve_day06"]
  else if m = "day07" then ["solve_day07"]
  else if m = "day01" ∨ m = "day02" ∨ m = "day05" ∨ m = "day08" ∨ m = "day09" ∨
      m = "day10" ∨ m = "day11" ∨ m = "day12" ∨ m = "day13" ∨ m = "day14" ∨
      m = "day15" ∨ m = "day16" ∨ m = "day17" ∨ m = "day18" ∨ m = "day19" then ["solve"]
  else []

/-- The modules src/main.rs declares (its mod items): day01 through day11
and solver only. -/
def mainDeclaredModules : List String :=
  ["day01", "day02", "day03", "day04", "day05", "day06", "day07", "day08",
   "day09", "day10", "day11", "solver"]

end SolverMeta

/-- C6: the claim that every day 1..16 runs module dayd's solver on
input/(zero-padded d) fails on the code: the path format and the dispatch
arms are as claimed, but the day-4 arm (likewise 3, 6, 7) calls
day04::solve while module day04 only exports solve_day04, and solver.rs
dispatches day 12 (likewise 13..16) to modules that src/main.rs never
declares, so the crate does not build and no day can run. -/
theorem claim_C6 :
    SolverMeta.inputPath 4 = "input/04" ∧
    SolverMeta.dispatchTarget 4 = some ⟨"day04", "solve"⟩ ∧
    "solve" ∉ SolverMeta.moduleSolverFns "day04" ∧
    SolverMeta.dispatchTarget 12 = some ⟨"day12", "solve"⟩ ∧
    "day12" ∉ SolverMeta.mainDeclaredModules := by decide

namespace Day05

/-- Two half-open source ranges share no point (claim C10's disjointness). -/
def rangesDisjoint (a b : RangeI) : Prop :=
  ∀ v : Int, ¬(a.start ≤ v ∧ v < a.stop ∧ b.start ≤ v ∧ v < b.stop)

/-- Claim C10's hypothesis: the parsed source ranges are pairwise
disjoint. -/
def pairwiseDisjoint (l : List RangeI) : Prop := l.Pairwise rangesDisjoint

theorem rangesDisjoint_symm : Symmetric rangesDisjoint := by
  intro a b h v hv
  exact h v ⟨hv.2.2.1, hv.2.2.2, hv.1, hv.2.1⟩

theorem fillGapsGo_ne_nil (cs : List RangeI) (minV : Int) : fillGapsGo cs minV ≠ [] := by
  cases cs with
  | nil => simp [fillGapsGo]
  | cons c cs' =>
    unfold fillGapsGo
    by_cases hg : minV < c.start <;> simp [hg]

theorem fillGapsGo_head_start_ge (cs : List RangeI) (minV : Int)
    (h : ∀ c cs', cs = c :: cs' → minV ≤ c.start) :
    ∀ r rest2, fillGapsGo cs minV = r :: rest2 → minV ≤ r.start := by
  intro r rest2 heq
  cases cs with
  | nil =>
    simp only [fillGapsGo] at heq
    obtain ⟨rfl, -⟩ := List.cons.injEq .. ▸ heq
    exact le_refl _
  | cons c cs' =>
    unfold fillGapsGo at heq
    by_cases hg : minV < c.start
    · simp only [hg, if_true, List.singleton_append] at heq
      obtain ⟨rfl, -⟩ := List.cons.injEq .. ▸ heq
      exact le_refl _
    · simp only [hg, if_false, List.nil_append] at heq
      obtain ⟨rfl, -⟩ := List.cons.injEq .. ▸ heq
      exact h c cs' rfl

theorem fillGapsGo_chain (cs : List RangeI) (minV : Int)
    (hne : ∀ r ∈ cs, r.start < r.stop)
    (hsep : cs.Chain' (fun a b => a.stop ≤ b.start)) :
    (fillGapsGo cs minV).Chain' RangeI.le := by
  induction cs generalizing minV with
  | nil => simp [fillGapsGo]
  | cons c cs' ih =>
    have hc : c.start < c.stop := hne c (List.mem_cons_self c cs')
    have hne' : ∀ r ∈ cs', r.start < r.stop :=
      fun r hr => hne r (List.mem_cons_of_mem c hr)
    have hsep' : cs'.Chain' (fun a b => a.stop ≤ b.start) := hsep.tail
    have hhead : ∀ c2 cs2, cs' = c2 :: cs2 → c.stop ≤ c2.start := by
      intro c2 cs2 heq
      subst heq
      exact (List.chain'_cons.mp hsep).1
    have ihc := ih c.stop hne' hsep'
    cases hout : fillGapsGo cs' c.stop with
    | nil => exact absurd hout (fillGapsGo_ne_nil cs' c.stop)
    | cons r rest2 =>
      have hr : c.stop ≤ r.start := fillGapsGo_head_start_ge cs' c.stop hhead r rest2 hout
      have hcons : List.Chain' RangeI.le (c :: r :: rest2) :=
        List.chain'_cons.mpr ⟨Or.inl (lt_of_lt_of_le hc hr), hout ▸ ihc⟩
      unfold fillGapsGo
      rw [hout]
      by_cases hg : minV < c.start
      · simp only [hg, if_true, List.singleton_append]
        exact List.chain'_cons.mpr ⟨Or.inl hg, hcons⟩
      · simp only [hg, if_false, List.nil_append]
        exact hcons

theorem fillGapsGo_covers (cs : List RangeI) (v : Int) (h2 : v < i64Max) :
    ∀ minV : Int, minV ≤ v →
      ∃ r ∈ fillGapsGo cs minV, r.start ≤ v ∧ v < r.stop := by
  induction cs with
  | nil =>
    intro minV h1
    exact ⟨⟨minV, i64Max, 0⟩, by simp [fillGapsGo], h1, h2⟩
  | cons c cs' ih =>
    intro minV h1
    by_cases hvc : v < c.start
    · have hg : minV < c.start := lt_of_le_of_lt h1 hvc
      refine ⟨⟨minV, c.start, 0⟩, ?_, h1, hvc⟩
      unfold fillGapsGo
      rw [if_pos hg]
      exact List.mem_cons_self _ _
    · by_cases hvs : v < c.stop
      · refine ⟨c, ?_, le_of_not_lt hvc, hvs⟩
        unfold fillGapsGo
        exact List.mem_append_right _ (List.mem_cons_self _ _)
      · obtain ⟨r, hrmem, hr⟩ := ih c.stop (le_of_not_lt hvs)
        refine ⟨r, ?_, hr⟩
        unfold fillGapsGo
        exact List.mem_append_right _ (List.mem_cons_of_mem _ hrmem)

theorem sorted_disjoint_sep (l : List RangeI)
    (hs : l.Pairwise RangeI.le) (hd : l.Pairwise rangesDisjoint)
    (hne : ∀ r ∈ l, r.start < r.stop) :
    l.Chain' (fun a b => a.stop ≤ b.start) := by
  have hp : l.Pairwise (fun a b => a.stop ≤ b.start) := by
    refine (hs.and hd).imp_of_mem ?_
    intro a b ha hb hab
    obtain ⟨hle, hdis⟩ := hab
    by_contra hlt
    have hbs : b.start < a.stop := lt_of_not_ge hlt
    have hbne : b.start < b.stop := hne b hb
    have hastart : a.start ≤ b.start := by
      unfold RangeI.le at hle
      omega
    exact hdis b.start ⟨hastart, hbs, le_refl _, hbne⟩
  exact hp.chain'

theorem mapNew_inversion (input : List (List Char)) (m : Map)
    (hm : Map.new input = some m) (srcs : List RangeI)
    (hsrcs : collectFormulas input.tail = some srcs) :
    m.formulas = fill_gaps (sortRanges srcs) := by
  unfold Map.new at hm
  by_cases hlen : input.length > 1
  · rw [if_pos hlen] at hm
    rcases input with _ | ⟨first_line, rest⟩
    · cases hm
    · have hm2 : (match splitSep "-to-".toList first_line with
        | [first, last] => do
          let source_category ← Category.from_str first
          let destination_category ← Category.from_str last
          let formulas ← collectFormulas rest
          pure (⟨source_category, destination_category,
                  fill_gaps (sortRanges formulas)⟩ : Map)
        | _ => none) = some m := hm
      clear hm
      rename' hm2 => hm
      cases hsplit : splitSep "-to-".toList first_line with
      | nil => rw [hsplit] at hm; cases hm
      | cons f rest2 =>
        cases rest2 with
        | nil => rw [hsplit] at hm; cases hm
        | cons snd rest3 =>
          cases rest3 with
          | cons _ _ => rw [hsplit] at hm; cases hm
          | nil =>
            rw [hsplit] at hm
            have hm3 : (do
                let source_category ← Category.from_str f
                let destination_category ← Category.from_str snd
                let formulas ← collectFormulas rest
                pure (⟨source_category, destination_category,
                        fill_gaps (sortRanges formulas)⟩ : Map)) = some m := hm
            clear hm
            cases hf : Category.from_str f with
            | none => rw [hf] at hm3; cases hm3
            | some sc =>
              cases hs : Category.from_str snd with
              | none => rw [hf, hs] at hm3; cases hm3
              | some dc =>
                cases hcf : collectFormulas rest with
                | none => rw [hf, hs, hcf] at hm3; cases hm3
                | some fs =>
                  rw [hf, hs, hcf] at hm3
                  have hm4 : some (⟨sc, dc, fill_gaps (sortRanges fs)⟩ : Map) = some m := hm3
                  have hm5 := Option.some.inj hm4
                  have hfs : fs = srcs := by
                    have h5 : collectFormulas rest = some srcs := hsrcs
                    rw [hcf] at h5
                    exact Option.some.inj h5
                  subst hfs
                  rw [← hm5]
  · rw [if_neg hlen] at hm
    cases hm

theorem remapOne_nonempty (formulas : List RangeI) (src : RangeI)
    (hcov : ∃ dst ∈ formulas, dst.start ≤ src.start ∧ src.start < dst.stop)
    (h1 : src.start < src.stop) :
    ∃ r ∈ remapOne formulas src, r.start < r.stop := by
  obtain ⟨dst, hdmem, hd1, hd2⟩ := hcov
  by_cases hb : src.stop ≤ dst.stop
  · refine ⟨⟨src.start + dst.diff, src.stop + dst.diff, 0⟩, ?_,
      show src.start + dst.diff < src.stop + dst.diff by omega⟩
    apply List.mem_filterMap.mpr
    refine ⟨dst, hdmem, ?_⟩
    show (if src.start ≥ dst.start ∧ src.stop ≤ dst.stop then _ else _) = _
    rw [if_pos ⟨hd1, hb⟩]
  · have hb' : dst.stop < src.stop := lt_of_not_ge hb
    refine ⟨⟨src.start + dst.diff, dst.stop + dst.diff, 0⟩, ?_,
      show src.start + dst.diff < dst.stop + dst.diff by omega⟩
    apply List.mem_filterMap.mpr
    refine ⟨dst, hdmem, ?_⟩
    show (if src.start ≥ dst.start ∧ src.stop ≤ dst.stop then _ else _) = _
    rw [if_neg (fun h => hb h.2),
      if_neg (fun (h : src.start < dst.start ∧ _) => absurd h.1 (not_lt.mpr hd1)),
      if_neg (fun (h : src.start < dst.start ∧ _) => absurd h.1 (not_lt.mpr hd1)),
      if_pos ⟨hd1, hb', le_of_lt hd2⟩]

end Day05

/-- The Part enum of src/utils.rs. -/
inductive Part
  | One
  | Two
deriving DecidableEq, Repr

/-- The Direction enum of src/utils.rs. -/
inductive Direction
  | North
  | East
  | South
  | West
  | Up
  | Down
  | Right
  | Left
deriving DecidableEq, Repr

/-- Direction::reverse of src/utils.rs. -/
def Direction.reverse : Direction → Direction
  | .North => .South
  | .East => .West
  | .South => .North
  | .West => .East
  | .Up => .Down
  | .Down => .Up
  | .Right => .Left
  | .Left => .Right

/-- Direction::get_modifier of src/utils.rs (note the source maps Left to
negative x and Right to positive x). -/
def Direction.get_modifier (d : Direction) (increment : Int) : Int × Int :=
  match d with
  | .North | .Up => (0, increment)
  | .East | .Left => (-increment, 0)
  | .South | .Down => (0, -increment)
  | .West | .Right => (increment, 0)

/-- The Coordinate struct of src/utils.rs over i32 (Int model). -/
structure Coordinate where
  x : Int
  y : Int
deriving DecidableEq, Repr

/-- Coordinate::add of src/utils.rs. -/
def Coordinate.add (c : Coordinate) (x y : Int) : Coordinate := ⟨c.x + x, c.y + y⟩

namespace Day17

/-- The Map struct of src/day17.rs: rows of digit heat losses, stored
bottom row first (the constructor reverses the lines). -/
structure Map where
  data : List (List Int)
deriving DecidableEq, Repr

/-- char::to_digit(10). -/
def digitOf (c : Char) : Option Int :=
  if c.isDigit then some ((c.toNat : Int) - 48) else none

/-- One line of Map::new: every character must be a digit (unwrap panic
otherwise). -/
def rowOf : List Char → Option (List Int)
  | [] => some []
  | c :: cs =>
    match digitOf c with
    | none => none
    | some d =>
      match rowOf cs with
      | none => none
      | some ds => some (d :: ds)

/-- The line loop of Map::new: skip empty lines, parse the rest. -/
def collectRows : List (List Char) → Option (List (List Int))
  | [] => some []
  | l :: ls =>
    if l = [] then collectRows ls
    else
      match rowOf l with
      | none => none
      | some r =>
        match collectRows ls with
        | none => none
        | some rs => some (r :: rs)

/-- Map::new of src/day17.rs (rows collected then reversed). -/
def Map.new (input : String) : Option Map :=
  match collectRows (rustLines input.toList) with
  | none => none
  | some rows => some ⟨rows.reverse⟩

/-- The grid height (max_y of Map::travel). -/
def Map.maxY (m : Map) : Int := m.data.length

/-- The grid width (max_x of Map::travel, the length of data[0]). -/
def Map.maxX (m : Map) : Int := (m.data.headD []).length

/-- Grid cell lookup self.data[y][x]; only used at in-bounds indices. -/
def Map.atXY (m : Map) (x y : Int) : Int := (m.data.getD y.toNat []).getD x.toNat 0

/-- The Queue struct of src/day17.rs; its per-state visited HashSet is an
insertion-ordered list (successors are built with an empty one, initial
states with a singleton). -/
structure Queue where
  coordinate : Coordinate
  previous_direction : Direction
  steps_in_this_direction : Int
  heat_loss : Int
  visited : List (Coordinate × Direction × Int)
deriving DecidableEq, Repr

/-- The derived strict greater-than of the Ord impl for Queue: heat_loss
first, then the visited count. -/
def Queue.gtb (a b : Queue) : Bool :=
  decide (a.heat_loss > b.heat_loss ∨
    (a.heat_loss = b.heat_loss ∧ a.visited.length > b.visited.length))

/-- VecDeque::insert at an index. -/
def insertAt {α : Type} : List α → Nat → α → List α
  | l, 0, n => n :: l
  | [], _ + 1, n => [n]
  | x :: xs, i + 1, n => x :: insertAt xs i n

/-- PriorityQueue::priority_push of src/day17.rs: insert before the first
strictly greater element, else push at the back. -/
def priority_push (q : List Queue) (n : Queue) : List Queue :=
  match q.findIdx? (fun f => Queue.gtb f n) with
  | some i => insertAt q i n
  | none => q ++ [n]

/-- HashSet::insert on the global visited set of Map::travel. -/
def visInsert (l : List (Coordinate × Direction × Int))
    (x : Coordinate × Direction × Int) : List (Coordinate × Direction × Int) :=
  if x ∈ l then l else l ++ [x]

/-- The per-part straight-line limit of Map::travel. -/
def straightLimit : Part → Int
  | .One => 3
  | .Two => 10

/-- The coordinate one step in a direction (coordinate.add of the
direction's unit modifier). -/
def stepCoord (c : Coordinate) (d : Direction) : Coordinate :=
  c.add (d.get_modifier 1).1 (d.get_modifier 1).2

/-- The bounds check of Map::travel. -/
def outOfBounds (m : Map) (c : Coordinate) : Prop :=
  c.x < 0 ∨ c.y < 0 ∨ c.x ≥ m.maxX ∨ c.y ≥ m.maxY

instance (m : Map) (c : Coordinate) : Decidable (outOfBounds m c) := by
  unfold outOfBounds
  infer_instance

/-- One candidate successor of the direction loop in Map::travel: none
models every continue (reverse direction, out of bounds, straight-limit
reached, part-two minimum-run rule, already visited).  The source also
computes a next_visited set it never uses; the built Queue carries an
empty visited set. -/
def genSucc (m : Map) (part : Part)
    (visited : List (Coordinate × Direction × Int)) (cur : Queue)
    (next_direction : Direction) : Option Queue :=
  if next_direction = cur.previous_direction.reverse then none
  else if outOfBounds m (stepCoord cur.coordinate next_direction) then none
  else if cur.previous_direction = next_direction ∧
      cur.steps_in_this_direction = straightLimit part then none
  else if part = Part.Two ∧ cur.previous_direction ≠ next_direction ∧
      cur.steps_in_this_direction < 4 then none
  else if (stepCoord cur.coordinate next_direction, next_direction,
      (if cur.previous_direction = next_direction
        then cur.steps_in_this_direction + 1 else 1)) ∈ visited then none
  else some ⟨stepCoord cur.coordinate next_direction, next_direction,
      (if cur.previous_direction = next_direction
        then cur.steps_in_this_direction + 1 else 1),
      cur.heat_loss + m.atXY (stepCoord cur.coordinate next_direction).x
        (stepCoord cur.coordinate next_direction).y, []⟩

/-- The successor states Map::travel pushes for one popped state, in the
direction order of the source. -/
def successors (m : Map) (part : Part)
    (visited : List (Coordinate × Direction × Int)) (cur : Queue) : List Queue :=
  ([Direction.Up, Direction.Down, Direction.Right, Direction.Left]).filterMap
    (genSucc m part visited cur)

/-- The while-let loop of Map::travel, fuelled: some none is the
exhausted-queue None return, some (some h) a found heat loss, none means
the fuel ran out. -/
def travelLoop (m : Map) (target : Coordinate) (part : Part) :
    Nat → List Queue → List (Coordinate × Direction × Int) → Option (Option Int)
  | 0, _, _ => none
  | fuel + 1, stks, visited =>
    match stks with
    | [] => some none
    | cur :: rest =>
      if cur.coordinate = target then
        if part = Part.Two ∧ cur.steps_in_this_direction < 4 then
          travelLoop m target part fuel rest visited
        else some (some cur.heat_loss)
      else if (cur.coordinate, cur.previous_direction,
          cur.steps_in_this_direction) ∈ visited then
        travelLoop m target part fuel rest visited
      else
        let visited2 := visInsert visited
          (cur.coordinate, cur.previous_direction, cur.steps_in_this_direction)
        travelLoop m target part fuel
          ((successors m part visited2 cur).foldl priority_push rest) visited2

/-- One candidate initial state of Map::travel for a direction: the
in-bounds neighbour of the start with one step taken and the cell's heat
loss, carrying a singleton visited set of (coordinate, direction, heat). -/
def genInit (m : Map) (initial : Coordinate) (d : Direction) : Option Queue :=
  if outOfBounds m (stepCoord initial d) then none
  else some ⟨stepCoord initial d, d, 1,
    m.atXY (stepCoord initial d).x (stepCoord initial d).y,
    [(stepCoord initial d, d, m.atXY (stepCoord initial d).x (stepCoord initial d).y)]⟩

/-- The initial queue states of Map::travel, in the direction order of the
source. -/
def initStacks (m : Map) (initial : Coordinate) : List Queue :=
  ([Direction.Up, Direction.Left, Direction.Right, Direction.Down]).filterMap
    (genInit m initial)

/-- Map::travel of src/day17.rs (fuelled).  An empty grid panics on
data[0] (none). -/
def Map.travel (m : Map) (initial target : Coordinate) (part : Part)
    (fuel : Nat) : Option (Option Int) :=
  match m.data with
  | [] => none
  | _ :: _ =>
      travelLoop m target part fuel
        ((initStacks m initial).foldl priority_push []) []

/-- day17::solve of src/day17.rs (fuelled): travel from the top-left
(stored coordinate (0, height-1)) to the bottom-right (width-1, 0) for
both parts; unwrap of a None travel result panics (none). -/
def solve (input : String) (fuel : Nat) : Option Answer :=
  match Map.new input with
  | none => none
  | some m =>
    match m.data with
    | [] => none
    | row0 :: _ => do
      let p1opt ← m.travel ⟨0, (m.data.length : Int) - 1⟩
        ⟨(row0.length : Int) - 1, 0⟩ Part.One fuel
      let p1 ← p1opt
      let p2opt ← m.travel ⟨0, (m.data.length : Int) - 1⟩
        ⟨(row0.length : Int) - 1, 0⟩ Part.Two fuel
      let p2 ← p2opt
      pure (⟨some (toString p1), some (toString p2)⟩ : Answer)

/-- Claim C7's path specification: the search states reachable by a path
that starts on an in-bounds neighbour of the initial coordinate with one
step taken, never moves in the reverse of the previous direction, keeps
runs of a direction within the straight limit (a same-direction move
increments the run and is forbidden at the limit; a turn resets it to 1
and, in part two, is forbidden before a run of 4), stays in bounds, and
accumulates the heat loss of every entered cell. -/
inductive Reach (m : Map) (initial : Coordinate) (part : Part) :
    Coordinate → Direction → Int → Int → Prop
  | init (d : Direction) (hin : ¬ outOfBounds m (stepCoord initial d)) :
      Reach m initial part (stepCoord initial d) d 1
        (m.atXY (stepCoord initial d).x (stepCoord initial d).y)
  | step (c : Coordinate) (pd : Direction) (s h : Int)
      (hprev : Reach m initial part c pd s h) (d : Direction)
      (hrev : d ≠ pd.reverse)
      (hin : ¬ outOfBounds m (stepCoord c d))
      (hlimit : ¬(pd = d ∧ s = straightLimit part))
      (hturn : ¬(part = Part.Two ∧ pd ≠ d ∧ s < 4)) :
      Reach m initial part (stepCoord c d) d
        (if pd = d then s + 1 else 1)
        (h + m.atXY (stepCoord c d).x (stepCoord c d).y)

/-- A queue state whose coordinate, direction, run length and heat loss
are reachable by a constrained path. -/
def ReachQ (m : Map) (initial : Coordinate) (part : Part) (q : Queue) : Prop :=
  Reach m initial part q.coordinate q.previous_direction
    q.steps_in_this_direction q.heat_loss

theorem mem_insertAt {α : Type} (l : List α) (i : Nat) (n a : α) :
    a ∈ insertAt l i n ↔ a = n ∨ a ∈ l := by
  induction l generalizing i with
  | nil => cases i <;> simp [insertAt]
  | cons x xs ih =>
    cases i with
    | zero => simp [insertAt]
    | succ j =>
      simp only [insertAt, List.mem_cons, ih j]
      tauto

theorem mem_priority_push (q : List Queue) (n a : Queue) :
    a ∈ priority_push q n ↔ a = n ∨ a ∈ q := by
  unfold priority_push
  cases h : q.findIdx? (fun f => Queue.gtb f n) with
  | none => simp; tauto
  | some i => exact mem_insertAt q i n a

theorem mem_foldl_priority_push (L : List Queue) (init : List Queue) (a : Queue) :
    a ∈ L.foldl priority_push init ↔ a ∈ init ∨ a ∈ L := by
  induction L generalizing init with
  | nil => simp
  | cons x L ih =>
    simp only [List.foldl_cons, ih (priority_push init x), mem_priority_push,
      List.mem_cons]
    tauto

theorem Reach_bounds (m : Map) (initial : Coordinate) (part : Part)
    (c : Coordinate) (d : Direction) (s h : Int)
    (hr : Reach m initial part c d s h) :
    1 ≤ s ∧ s ≤ straightLimit part := by
  have hlim : 1 ≤ straightLimit part := by cases part <;> decide
  induction hr with
  | init d hin => exact ⟨le_refl 1, hlim⟩
  | step c pd s2 h2 hprev d2 hrev hin hlimit hturn ih =>
    by_cases hsame : pd = d2
    · rw [if_pos hsame]
      have hne : s2 ≠ straightLimit part := fun he => hlimit ⟨hsame, he⟩
      omega
    · rw [if_neg hsame]
      omega

theorem genSucc_sound (m : Map) (initial : Coordinate) (part : Part)
    (visited : List (Coordinate × Direction × Int)) (cur q : Queue)
    (d : Direction) (hg : genSucc m part visited cur d = some q)
    (hcur : ReachQ m initial part cur) :
    ReachQ m initial part q ∧ q.previous_direction = d ∧
      d ≠ cur.previous_direction.reverse := by
  unfold genSucc at hg
  by_cases h1 : d = cur.previous_direction.reverse
  · rw [if_pos h1] at hg; cases hg
  · rw [if_neg h1] at hg
    by_cases h2 : outOfBounds m (stepCoord cur.coordinate d)
    · rw [if_pos h2] at hg; cases hg
    · rw [if_neg h2] at hg
      by_cases h3 : cur.previous_direction = d ∧
          cur.steps_in_this_direction = straightLimit part
      · rw [if_pos h3] at hg; cases hg
      · rw [if_neg h3] at hg
        by_cases h4 : part = Part.Two ∧ cur.previous_direction ≠ d ∧
            cur.steps_in_this_direction < 4
        · rw [if_pos h4] at hg; cases hg
        · rw [if_neg h4] at hg
          by_cases h5 : (stepCoord cur.coordinate d, d,
              (if cur.previous_direction = d
                then cur.steps_in_this_direction + 1 else 1)) ∈ visited
          · rw [if_pos h5] at hg; cases hg
          · rw [if_neg h5] at hg
            have hq := Option.some.inj hg
            subst hq
            refine ⟨?_, rfl, h1⟩
            exact Reach.step cur.coordinate cur.previous_direction
              cur.steps_in_this_direction cur.heat_loss hcur d h1 h2 h3 h4

theorem genInit_sound (m : Map) (initial : Coordinate) (part : Part)
    (d : Direction) (q : Queue) (hg : genInit m initial d = some q) :
    ReachQ m initial part q ∧ q.steps_in_this_direction = 1 := by
  unfold genInit at hg
  by_cases h1 : outOfBounds m (stepCoord initial d)
  · rw [if_pos h1] at hg; cases hg
  · rw [if_neg h1] at hg
    have hq := Option.some.inj hg
    subst hq
    exact ⟨Reach.init d h1, rfl⟩

theorem initStacks_sound (m : Map) (initial : Coordinate) (part : Part)
    (q : Queue) (hq : q ∈ initStacks m initial) :
    ReachQ m initial part q ∧ q.steps_in_this_direction = 1 := by
  obtain ⟨d, -, hg⟩ := List.mem_filterMap.mp hq
  exact genInit_sound m initial part d q hg

theorem successors_sound (m : Map) (initial : Coordinate) (part : Part)
    (visited : List (Coordinate × Direction × Int)) (cur q : Queue)
    (hq : q ∈ successors m part visited cur)
    (hcur : ReachQ m initial part cur) :
    ReachQ m initial part q ∧
      q.previous_direction ≠ cur.previous_direction.reverse := by
  obtain ⟨d, -, hg⟩ := List.mem_filterMap.mp hq
  obtain ⟨hr, hd, hrev⟩ := genSucc_sound m initial part visited cur q d hg hcur
  exact ⟨hr, hd ▸ hrev⟩

theorem travelLoop_sound (m : Map) (initial target : Coordinate) (part : Part) :
    ∀ (fuel : Nat) (stks : List Queue)
      (visited : List (Coordinate × Direction × Int)) (hl : Int),
      (∀ q ∈ stks, ReachQ m initial part q) →
      travelLoop m target part fuel stks visited = some (some hl) →
      ∃ d s, Reach m initial part target d s hl ∧ 1 ≤ s ∧
        s ≤ straightLimit part ∧ (part = Part.Two → 4 ≤ s) := by
  intro fuel
  induction fuel with
  | zero => intro stks visited hl _ h; cases h
  | succ f ih =>
    intro stks visited hl hinv h
    cases stks with
    | nil =>
      rw [show travelLoop m target part (f + 1) [] visited = some none from rfl] at h
      cases Option.some.inj h
    | cons cur rest =>
      have hinv_rest : ∀ q ∈ rest, ReachQ m initial part q :=
        fun q hq => hinv q (List.mem_cons_of_mem cur hq)
      have hcur : ReachQ m initial part cur := hinv cur (List.mem_cons_self cur rest)
      have h : (if cur.coordinate = target then
          if part = Part.Two ∧ cur.steps_in_this_direction < 4 then
            travelLoop m target part f rest visited
          else some (some cur.heat_loss)
        else if (cur.coordinate, cur.previous_direction,
            cur.steps_in_this_direction) ∈ visited then
          travelLoop m target part f rest visited
        else travelLoop m target part f
          ((successors m part (visInsert visited (cur.coordinate,
              cur.previous_direction, cur.steps_in_this_direction)) cur).foldl
            priority_push rest)
          (visInsert visited (cur.coordinate, cur.previous_direction,
            cur.steps_in_this_direction))) = some (some hl) := h
      by_cases htgt : cur.coordinate = target
      · rw [if_pos htgt] at h
        by_cases hp2 : part = Part.Two ∧ cur.steps_in_this_direction < 4
        · rw [if_pos hp2] at h
          exact ih rest visited hl hinv_rest h
        · rw [if_neg hp2] at h
          have hhl : cur.heat_loss = hl := Option.some.inj (Option.some.inj h)
          obtain ⟨hb1, hb2⟩ := Reach_bounds m initial part cur.coordinate
            cur.previous_direction cur.steps_in_this_direction cur.heat_loss hcur
          refine ⟨cur.previous_direction, cur.steps_in_this_direction,
            ?_, hb1, hb2, ?_⟩
          · rw [← htgt, ← hhl]; exact hcur
          · intro hpt
            by_contra hlt
            exact hp2 ⟨hpt, by omega⟩
      · rw [if_neg htgt] at h
        by_cases hvis : (cur.coordinate, cur.previous_direction,
            cur.steps_in_this_direction) ∈ visited
        · rw [if_pos hvis] at h
          exact ih rest visited hl hinv_rest h
        · rw [if_neg hvis] at h
          refine ih _ _ hl ?_ h
          intro q hq
          rcases (mem_foldl_priority_push _ rest q).mp hq with hq | hq
          · exact hinv_rest q hq
          · exact (successors_sound m initial part _ cur q hq hcur).1

end Day17

/-- C7: in the day17 search, the straight-line turn constraint is an
invariant of every reachable search state: every initial state and every
successor pushed onto the queue has steps_in_this_direction between 1 and
the straight limit (3 for Part::One, 10 for Part::Two), no state is ever
extended in the reverse of its previous direction, and when travel returns
Some the returned heat loss is the cost of a path obeying these
constraints (a Reach derivation ending at the target, with a run of at
least 4 at the target in part two). -/
theorem claim_C7 (m : Day17.Map) (initial target : Coordinate) (part : Part) :
    (∀ q ∈ Day17.initStacks m initial,
      Day17.ReachQ m initial part q ∧ 1 ≤ q.steps_in_this_direction ∧
        q.steps_in_this_direction ≤ Day17.straightLimit part) ∧
    (∀ (visited : List (Coordinate × Direction × Int)) (cur q : Day17.Queue),
      Day17.ReachQ m initial part cur →
      q ∈ Day17.successors m part visited cur →
      Day17.ReachQ m initial part q ∧ 1 ≤ q.steps_in_this_direction ∧
        q.steps_in_this_direction ≤ Day17.straightLimit part ∧
        q.previous_direction ≠ cur.previous_direction.reverse) ∧
    (∀ (fuel : Nat) (hl : Int),
      m.travel initial target part fuel = some (some hl) →
      ∃ d s, Day17.Reach m initial part target d s hl ∧ 1 ≤ s ∧
        s ≤ Day17.straightLimit part ∧ (part = Part.Two → 4 ≤ s)) := by
  refine ⟨?_, ?_, ?_⟩
  · intro q hq
    obtain ⟨hr, -⟩ := Day17.initStacks_sound m initial part q hq
    obtain ⟨hb1, hb2⟩ := Day17.Reach_bounds m initial part q.coordinate
      q.previous_direction q.steps_in_this_direction q.heat_loss hr
    exact ⟨hr, hb1, hb2⟩
  · intro visited cur q hcur hq
    obtain ⟨hr, hrev⟩ := Day17.successors_sound m initial part visited cur q hq hcur
    obtain ⟨hb1, hb2⟩ := Day17.Reach_bounds m initial part q.coordinate
      q.previous_direction q.steps_in_this_direction q.heat_loss hr
    exact ⟨hr, hb1, hb2, hrev⟩
  · intro fuel hl h
    unfold Day17.Map.travel at h
    cases hd : m.data with
    | nil => rw [hd] at h; cases h
    | cons row rows =>
      rw [hd] at h
      have h2 : Day17.travelLoop m target part fuel
          ((Day17.initStacks m initial).foldl Day17.priority_push []) [] =
          some (some hl) := h
      refine Day17.travelLoop_sound m initial target part fuel _ [] hl ?_ h2
      intro q hq
      rcases (Day17.mem_foldl_priority_push _ [] q).mp hq with hq | hq
      · cases hq
      · exact (Day17.initStacks_sound m initial part q hq).1

/-- Witness for C7 on the 2-by-2 all-ones grid: the initial state stepping
right is reachable with run bounds, its successor stepping down is
reachable, within bounds and not reversed, and the returned part-one heat
loss 2 is the cost of a constrained path to the target. -/
theorem claim_C7_witness :
    (Day17.ReachQ ⟨[[1, 1], [1, 1]]⟩ ⟨0, 1⟩ Part.One
        ⟨⟨1, 1⟩, Direction.Right, 1, 1, [(⟨1, 1⟩, Direction.Right, 1)]⟩ ∧
      (1 : Int) ≤ 1 ∧ (1 : Int) ≤ Day17.straightLimit Part.One) ∧
    (Day17.ReachQ ⟨[[1, 1], [1, 1]]⟩ ⟨0, 1⟩ Part.One
        ⟨⟨1, 0⟩, Direction.Down, 1, 2, []⟩ ∧
      (1 : Int) ≤ 1 ∧ (1 : Int) ≤ Day17.straightLimit Part.One ∧
      Direction.Down ≠ Direction.Right.reverse) ∧
    (∃ d s, Day17.Reach ⟨[[1, 1], [1, 1]]⟩ ⟨0, 1⟩ Part.One ⟨1, 0⟩ d s 2 ∧
      1 ≤ s ∧ s ≤ Day17.straightLimit Part.One ∧
      (Part.One = Part.Two → 4 ≤ s)) := by
  have h := claim_C7 ⟨[[1, 1], [1, 1]]⟩ ⟨0, 1⟩ ⟨1, 0⟩ Part.One
  have h1 := h.1 ⟨⟨1, 1⟩, Direction.Right, 1, 1, [(⟨1, 1⟩, Direction.Right, 1)]⟩
    (by decide)
  have h2 := h.2.1 [] ⟨⟨1, 1⟩, Direction.Right, 1, 1, [(⟨1, 1⟩, Direction.Right, 1)]⟩
    ⟨⟨1, 0⟩, Direction.Down, 1, 2, []⟩ h1.1 (by decide)
  have h3 := h.2.2 10 2 (by decide)
  exact ⟨⟨h1.1, h1.2⟩, ⟨h2.1, h2.2.1, h2.2.2.1, h2.2.2.2⟩, h3⟩

/-- C10 counterexample: the claim as stated is false.  On the map block
with data lines "5 5 -2" and "7 7 2", the parsed source ranges are
[5,3) (empty, because the interval is negative) and [7,9), which are
pairwise disjoint as sets, yet the formulas list Map::new builds is not
sorted by the derived Ord. -/
theorem claim_C10_counterexample :
    Day05.collectFormulas ["5 5 -2".toList, "7 7 2".toList] =
      some [⟨5, 3, 0⟩, ⟨7, 9, 0⟩] ∧
    Day05.pairwiseDisjoint [⟨5, 3, 0⟩, ⟨7, 9, 0⟩] ∧
    Day05.Map.new ["seed-to-soil".toList, "5 5 -2".toList, "7 7 2".toList] =
      some ⟨Day05.Category.Seed, Day05.Category.Soil,
        [⟨0, 5, 0⟩, ⟨5, 3, 0⟩, ⟨3, 7, 0⟩, ⟨7, 9, 0⟩, ⟨9, Day05.i64Max, 0⟩]⟩ ∧
    ¬ List.Sorted Day05.RangeI.le
        [⟨0, 5, 0⟩, ⟨5, 3, 0⟩, ⟨3, 7, 0⟩, ⟨7, 9, 0⟩, ⟨9, Day05.i64Max, 0⟩] := by
  refine ⟨by decide, ?_, by decide, by decide⟩
  refine List.Pairwise.cons ?_ (List.pairwise_singleton _ _)
  intro b hb
  simp only [List.mem_singleton] at hb
  subst hb
  intro v
  show ¬((5 : Int) ≤ v ∧ v < 3 ∧ (7 : Int) ≤ v ∧ v < 9)
  omega

/-- C10 (amended: the source ranges must also be nonempty, start < end;
the unamended claim fails by claim_C10_counterexample): for a Map built by
Map::new from pairwise disjoint nonempty source ranges, the formulas list
is sorted by the derived Ord and covers every 0 <= v < i64::MAX, and
consequently remapping (and hence get_next_range through the map found for
the source category) sends every nonempty source range inside
[0, i64::MAX) to at least one nonempty destination range. -/
theorem claim_C10 (input : List (List Char)) (m : Day05.Map) (srcs : List Day05.RangeI)
    (hm : Day05.Map.new input = some m)
    (hsrcs : Day05.collectFormulas input.tail = some srcs)
    (hdisj : Day05.pairwiseDisjoint srcs)
    (hne : ∀ r ∈ srcs, r.start < r.stop) :
    List.Sorted Day05.RangeI.le m.formulas ∧
    (∀ v : Int, 0 ≤ v → v < Day05.i64Max →
      ∃ r ∈ m.formulas, r.start ≤ v ∧ v < r.stop) ∧
    (∀ src : Day05.RangeI, 0 ≤ src.start → src.start < src.stop →
      src.stop ≤ Day05.i64Max →
      ∃ r ∈ Day05.remapOne m.formulas src, r.start < r.stop) ∧
    (∀ (a : Day05.Almanac) (cat : Day05.Category),
      a.maps.find? (fun f => f.source_category == cat) = some m →
      ∀ src : Day05.RangeI, 0 ≤ src.start → src.start < src.stop →
        src.stop ≤ Day05.i64Max →
        ∃ res cat2, a.get_next_range [src] cat = some (res, cat2) ∧
          ∃ r ∈ res, r.start < r.stop) := by
  have hform := Day05.mapNew_inversion input m hm srcs hsrcs
  have hsorted_s : (Day05.sortRanges srcs).Pairwise Day05.RangeI.le :=
    List.sorted_insertionSort _ _
  have hperm : List.Perm (Day05.sortRanges srcs) srcs := List.perm_insertionSort _ _
  have hdisj_s : (Day05.sortRanges srcs).Pairwise Day05.rangesDisjoint :=
    (hperm.pairwise_iff @Day05.rangesDisjoint_symm).mpr hdisj
  have hne_s : ∀ r ∈ Day05.sortRanges srcs, r.start < r.stop :=
    fun r hr => hne r (hperm.mem_iff.mp hr)
  have hsep := Day05.sorted_disjoint_sep _ hsorted_s hdisj_s hne_s
  have hchain := Day05.fillGapsGo_chain (Day05.sortRanges srcs) 0 hne_s hsep
  have hSorted : List.Sorted Day05.RangeI.le m.formulas := by
    rw [hform]
    exact List.chain'_iff_pairwise.mp hchain
  have hcov : ∀ v : Int, 0 ≤ v → v < Day05.i64Max →
      ∃ r ∈ m.formulas, r.start ≤ v ∧ v < r.stop := by
    intro v h0 h1
    rw [hform]
    exact Day05.fillGapsGo_covers (Day05.sortRanges srcs) v h1 0 h0
  have hremap : ∀ src : Day05.RangeI, 0 ≤ src.start → src.start < src.stop →
      src.stop ≤ Day05.i64Max →
      ∃ r ∈ Day05.remapOne m.formulas src, r.start < r.stop := by
    intro src h0 h1 h2
    obtain ⟨dst, hdm, hd⟩ := hcov src.start h0 (by omega)
    exact Day05.remapOne_nonempty m.formulas src ⟨dst, hdm, hd.1, hd.2⟩ h1
  refine ⟨hSorted, hcov, hremap, ?_⟩
  intro a cat hfind src h0 h1 h2
  unfold Day05.Almanac.get_next_range
  rw [hfind]
  refine ⟨_, _, rfl, ?_⟩
  obtain ⟨r, hrm, hrr⟩ := hremap src h0 h1 h2
  have hflat : (([src].map (Day05.remapOne m.formulas)).flatten) =
      Day05.remapOne m.formulas src := by simp
  refine ⟨r, ?_, hrr⟩
  exact (List.perm_insertionSort _ _).mem_iff.mpr (hflat ▸ hrm)

/-- Witness for C10 at the worked example's seed-to-soil map (lines
"50 98 2" and "52 50 48", disjoint nonempty source ranges [98,100) and
[50,98)): the built formulas list is sorted, covers v = 42, and remapping
the seed range [79,93) gives a nonempty range. -/
theorem claim_C10_witness :
    List.Sorted Day05.RangeI.le
      [⟨0, 50, 0⟩, ⟨50, 98, 2⟩, ⟨98, 100, -48⟩, ⟨100, Day05.i64Max, 0⟩] ∧
    (∃ r ∈ ([⟨0, 50, 0⟩, ⟨50, 98, 2⟩, ⟨98, 100, -48⟩,
        ⟨100, Day05.i64Max, 0⟩] : List Day05.RangeI), r.start ≤ 42 ∧ (42 : Int) < r.stop) ∧
    (∃ r ∈ Day05.remapOne
        [⟨0, 50, 0⟩, ⟨50, 98, 2⟩, ⟨98, 100, -48⟩, ⟨100, Day05.i64Max, 0⟩]
        ⟨79, 93, 0⟩, r.start < r.stop) := by
  have hdisj : Day05.pairwiseDisjoint [⟨98, 100, -48⟩, ⟨50, 98, 2⟩] := by
    refine List.Pairwise.cons ?_ (List.pairwise_singleton _ _)
    intro b hb
    simp only [List.mem_singleton] at hb
    subst hb
    intro v
    show ¬((98 : Int) ≤ v ∧ v < 100 ∧ (50 : Int) ≤ v ∧ v < 98)
    omega
  have h := claim_C10
    ["seed-to-soil".toList, "50 98 2".toList, "52 50 48".toList]
    ⟨Day05.Category.Seed, Day05.Category.Soil,
      [⟨0, 50, 0⟩, ⟨50, 98, 2⟩, ⟨98, 100, -48⟩, ⟨100, Day05.i64Max, 0⟩]⟩
    [⟨98, 100, -48⟩, ⟨50, 98, 2⟩]
    (by decide) (by decide) hdisj (by decide)
  exact ⟨h.1, h.2.1 42 (by decide) (by decide),
    h.2.2.1 ⟨79, 93, 0⟩ (by decide) (by decide) (by decide)⟩

/-- C2: on the published six-card scratch-ticket example, solve_day04
returns Ok with part1 = Some "13" (sum over cards of 0 or 2^(matches-1))
and part2 = Some "30" (total original plus copied cards processed). -/
theorem claim_C2 :
    Day04.solve_day04
      ("Card 1: 41 48 83 86 17 | 83 86  6 31 17  9 48 53\n" ++
       "Card 2: 13 32 20 16 61 | 61 30 68 82 17 32 24 19\n" ++
       "Card 3:  1 21 53 59 44 | 69 82 63 72 16 21 14  1\n" ++
       "Card 4: 41 92 73 84 69 | 59 84 76 51 58  5 54 83\n" ++
       "Card 5: 87 83 26 28 32 | 88 30 70 12 93 22 82 36\n" ++
       "Card 6: 31 18 13 56 72 | 74 77 10 23 35 67 36 11") =
      some ⟨some "13", some "30"⟩ := by decide

end AoC
